import Mathlib

set_option maxRecDepth 100000

/-!
Shallow embedding of the velox-1 core pieces covered by the specification:

* `Int128` / `Decimal` / `DecimalCasts::parseStringToDecimal`
  (src/velox/connectors/hive/storage_adapters/s3fs/benchmark/S3ReadBenchmark.h);
* `flattenArray` / `flattenMap` / `flattenBuffers` / `flattenNulls`
  (src/velox/functions/lib/LambdaFunctionUtil.cpp);
* the DuckDB conversion adapter `convert` / `convertDuckToVeloxDecimal`
  (src/velox/duckdb/conversion/DuckWrapper.cpp).

Machine `__int128_t` values are modelled as `Int` with explicit range checks at
the points where the source uses `__builtin_*_overflow`; raw buffers are
modelled as total functions `Nat → _` with explicit point updates; code that
throws is modelled with `Except`.
-/

namespace Velox

/-- Smallest `int128_t` value, `-2^127`. -/
def int128Min : Int := -(2 ^ 127)

/-- Largest `int128_t` value, `2^127 - 1`. -/
def int128Max : Int := 2 ^ 127 - 1

/-- Whether an integer is representable as a signed 128-bit value. -/
def inInt128 (n : Int) : Prop := int128Min ≤ n ∧ n ≤ int128Max

instance (n : Int) : Decidable (inInt128 n) := by
  unfold inInt128; infer_instance

/-- Error classes observable from the decimal code: `validationErr` models a
`VELOX_USER_CHECK` failure (`VeloxUserError`), `overflowErr` models the
`VELOX_CHECK(!__builtin_*_overflow(...))` failure (`VeloxRuntimeError`) that
`parseStringToDecimal` catches and rethrows as the "Decimal overflow" user
error. -/
inductive VErr where
  | validationErr
  | overflowErr
deriving DecidableEq, Repr

namespace Int128

/-- `Int128::operator+`: `VELOX_CHECK(!__builtin_add_overflow(a, b, &sum))`;
the exact sum is returned when it fits in 128 bits, otherwise the check throws. -/
def add (a b : Int) : Except VErr Int :=
  if inInt128 (a + b) then .ok (a + b) else .error .overflowErr

/-- `Int128::operator-`: overflow-checked exact subtraction. -/
def sub (a b : Int) : Except VErr Int :=
  if inInt128 (a - b) then .ok (a - b) else .error .overflowErr

/-- `Int128::operator*`: overflow-checked exact multiplication. -/
def mul (a b : Int) : Except VErr Int :=
  if inInt128 (a * b) then .ok (a * b) else .error .overflowErr

end Int128

/-- The `Decimal` class: an `Int128` unscaled value plus `uint8_t` precision and
scale fields (modelled as `Nat`; the source never produces values ≥ 256 for
inputs of length ≤ 255, which is also the bound under which the `uint8_t` loop
index `pos` of `parseToInt128` behaves like a mathematical index). -/
structure Decimal where
  unscaledValue : Int
  precision : Nat
  scale : Nat
deriving DecidableEq, Repr

namespace Decimal

/-- `Decimal::operator==`: compares the triple (unscaledValue, precision, scale). -/
def eq (a b : Decimal) : Bool :=
  a.unscaledValue == b.unscaledValue && a.precision == b.precision &&
    a.scale == b.scale

/-- `Decimal::operator!=`: the source returns the literal `true`. -/
def ne (_a _b : Decimal) : Bool := true

/-- `Decimal::operator<`: the source returns the literal `true`. -/
def lt (_a _b : Decimal) : Bool := true

/-- `Decimal::operator<=`: the source returns the literal `true`. -/
def le (_a _b : Decimal) : Bool := true

/-- `Decimal::operator>`: the source returns the literal `true`. -/
def gt (_a _b : Decimal) : Bool := true

end Decimal

/-- C `isdigit` restricted to the decimal digits, as used by `parseToInt128`:
true exactly for `'0'..'9'` (codes 48..57). -/
def isdigit (c : Char) : Bool := 48 ≤ c.toNat && c.toNat ≤ 57

/-- State threaded through the accumulation loop of `parseToInt128`. -/
structure ParseState where
  result : Int
  precision : Nat
  scale : Nat
  hasScale : Bool
deriving Repr

/-- The accumulation performed for one digit character `c`
(`digit.value = value[pos] - '0'`):
`result = result * exponent - digit` when negative, `+ digit` otherwise, each
step through the overflow-checked `Int128` operators. -/
def digitStep (isNegative : Bool) (st : ParseState) (c : Char) : Except VErr Int :=
  match Int128.mul st.result 10 with
  | .error e => .error e
  | .ok p =>
    if isNegative then Int128.sub p ((c.toNat : Int) - 48)
    else Int128.add p ((c.toNat : Int) - 48)

/-- The `while (pos < value.length())` loop of `parseToInt128`:
`'.'` sets `hasScale` and continues; a digit performs `digitStep`; any other
character fails the `VELOX_USER_CHECK(std::isdigit(...))` with a validation
error. -/
def parseLoop (isNegative : Bool) : List Char → ParseState → Except VErr ParseState
  | [], st => .ok st
  | c :: rest, st =>
    if c = '.' then
      parseLoop isNegative rest { st with hasScale := true }
    else if isdigit c then
      match digitStep isNegative st c with
      | .error e => .error e
      | .ok r =>
        parseLoop isNegative rest
          { result := r
            precision := st.precision + 1
            scale := if st.hasScale then st.scale + 1 else st.scale
            hasScale := st.hasScale }
    else
      .error .validationErr

/-- `DecimalCasts::parseToInt128`: an optional leading sign (anything else
non-digit in front fails the `VELOX_USER_CHECK(value[pos] == '-' || ...)`),
leading zeros stripped via `value.erase(0, value.find_first_not_of('0'))`,
then the accumulation loop starting from `result = 0`.  Returns
(result, precision, scale). -/
def parseToInt128 : List Char → Except VErr (Int × Nat × Nat)
  | [] =>
    -- `value[0]` on an empty std::string reads '\0': neither digit nor sign.
    .error .validationErr
  | c :: rest =>
    if isdigit c then
      match parseLoop false ((c :: rest).dropWhile (· = '0')) ⟨0, 0, 0, false⟩ with
      | .ok st => .ok (st.result, st.precision, st.scale)
      | .error e => .error e
    else if c = '-' ∨ c = '+' then
      match parseLoop (c = '-') (rest.dropWhile (· = '0')) ⟨0, 0, 0, false⟩ with
      | .ok st => .ok (st.result, st.precision, st.scale)
      | .error e => .error e
    else
      .error .validationErr

/-- `DecimalCasts::parseStringToDecimal`: checks `value.length() > 0`, calls
`parseToInt128`, and converts a caught `VeloxRuntimeError` (128-bit overflow)
into the "Decimal overflow" user error; user errors from the character checks
propagate unchanged. -/
def parseStringToDecimal (value : List Char) : Except VErr Decimal :=
  if 0 < value.length then
    match parseToInt128 value with
    | .ok (r, p, s) => .ok ⟨r, p, s⟩
    | .error e => .error e
  else
    .error .validationErr

/-- Characters the accumulation loop accepts without error: digits and `'.'`. -/
def okChar (c : Char) : Bool := isdigit c || c = '.'

/-- The characters examined after the optional leading sign is removed. -/
def afterSign : List Char → List Char
  | [] => []
  | c :: rest => if c = '-' ∨ c = '+' then rest else c :: rest

lemma int128_mul_ok {a b p : Int} (h : Int128.mul a b = .ok p) : p = a * b := by
  unfold Int128.mul at h
  split at h
  · exact (Except.ok.inj h).symm
  · exact Except.noConfusion h

lemma int128_add_ok {a b p : Int} (h : Int128.add a b = .ok p) : p = a + b := by
  unfold Int128.add at h
  split at h
  · exact (Except.ok.inj h).symm
  · exact Except.noConfusion h

lemma int128_sub_ok {a b p : Int} (h : Int128.sub a b = .ok p) : p = a - b := by
  unfold Int128.sub at h
  split at h
  · exact (Except.ok.inj h).symm
  · exact Except.noConfusion h

lemma isdigit_bounds {c : Char} (h : isdigit c = true) :
    48 ≤ c.toNat ∧ c.toNat ≤ 57 := by
  simpa [isdigit] using h

lemma digitStep_ok {neg : Bool} {st : ParseState} {c : Char} {r : Int}
    (h : digitStep neg st c = .ok r) :
    r = st.result * 10 - ((c.toNat : Int) - 48) ∨
    r = st.result * 10 + ((c.toNat : Int) - 48) := by
  unfold digitStep at h
  split at h
  · exact Except.noConfusion h
  case h_2 p hmul =>
    have hp := int128_mul_ok hmul
    split at h
    · exact Or.inl (hp ▸ int128_sub_ok h)
    · exact Or.inr (hp ▸ int128_add_ok h)

/-- Loop invariant of `parseLoop`: the scale never exceeds the precision and
the accumulated magnitude stays below `10 ^ precision`. -/
lemma parseLoop_inv (l : List Char) : ∀ (neg : Bool) (st st' : ParseState),
    parseLoop neg l st = .ok st' →
    st.scale ≤ st.precision → st.result.natAbs < 10 ^ st.precision →
    st'.scale ≤ st'.precision ∧ st'.result.natAbs < 10 ^ st'.precision := by
  induction l with
  | nil =>
    intro neg st st' h h1 h2
    unfold parseLoop at h
    cases h
    exact ⟨h1, h2⟩
  | cons c rest ih =>
    intro neg st st' h h1 h2
    unfold parseLoop at h
    split at h
    · exact ih neg _ st' h h1 h2
    · split at h
      case isTrue hdig =>
        split at h
        · exact Except.noConfusion h
        case h_2 r hacc =>
          have hr := digitStep_ok hacc
          refine ih neg _ st' h ?_ ?_
          · dsimp only
            split <;> omega
          · dsimp only
            have hb := isdigit_bounds hdig
            have hpow : (10 : ℕ) ^ (st.precision + 1) =
                10 ^ st.precision * 10 := pow_succ 10 st.precision
            rw [hpow]
            omega
      case isFalse => exact Except.noConfusion h

/-- If the remaining characters contain one that is neither a digit nor `'.'`,
the accumulation loop fails (with a validation error at that character, or
with the 128-bit overflow error if accumulation overflows before reaching it). -/
lemma parseLoop_bad (l : List Char) : ∀ (neg : Bool) (st : ParseState) (c : Char),
    c ∈ l → okChar c = false → ∃ e, parseLoop neg l st = .error e := by
  induction l with
  | nil => intro _ _ _ hc _; cases hc
  | cons a rest ih =>
    intro neg st c hc hbad
    unfold parseLoop
    by_cases hdot : a = '.'
    · rw [if_pos hdot]
      have hcr : c ∈ rest := by
        rcases List.mem_cons.mp hc with h | h
        · exfalso; rw [h, hdot] at hbad; simp [okChar] at hbad
        · exact h
      exact ih neg _ c hcr hbad
    · rw [if_neg hdot]
      by_cases hdig : isdigit a = true
      · rw [if_pos hdig]
        have hcr : c ∈ rest := by
          rcases List.mem_cons.mp hc with h | h
          · exfalso; rw [h] at hbad; simp [okChar, hdig] at hbad
          · exact h
        cases hds : digitStep neg st a with
        | error e => simp only [hds]; exact ⟨e, rfl⟩
        | ok r => simp only [hds]; exact ih neg _ c hcr hbad
      · rw [if_neg hdig]
        exact ⟨.validationErr, rfl⟩

lemma bad_mem_dropWhile (l : List Char) (c : Char) (hc : c ∈ l)
    (hbad : okChar c = false) :
    ∃ c', c' ∈ l.dropWhile (· = '0') ∧ okChar c' = false := by
  induction l with
  | nil => cases hc
  | cons a rest ih =>
    by_cases ha : a = '0'
    · rw [List.dropWhile_cons, if_pos (by simp [ha])]
      rcases List.mem_cons.mp hc with h | h
      · exfalso; rw [h, ha] at hbad; simp [okChar, isdigit] at hbad
      · exact ih h
    · rw [List.dropWhile_cons, if_neg (by simp [ha])]
      exact ⟨c, hc, hbad⟩

lemma isdigit_not_sign {c : Char} (h : isdigit c = true) : ¬(c = '-' ∨ c = '+') := by
  rintro (rfl | rfl) <;> simp [isdigit] at h

/-- Claim C2: the code's own comment (`// throws overflow exception if length
is > 38`) and the spec demand an overflow error for digit-strings with more
than 38 digits, but the 39-digit string `10^38` fits in 128 bits and is
accepted, returning a Decimal with precision 39. -/
theorem claim_C2_thirtynine_digits_accepted :
    parseStringToDecimal "100000000000000000000000000000000000000".toList =
      .ok ⟨10 ^ 38, 39, 0⟩ ∧
    ("100000000000000000000000000000000000000".toList.filter isdigit).length = 39 := by
  exact ⟨rfl, rfl⟩

/-- Claim C3, counterexample: `"1.2.3"` contains two `'.'` characters yet is
accepted (every `'.'` merely re-sets the `hasScale` flag), returning
`Decimal(123, 3, 2)` instead of failing with a validation error. -/
theorem claim_C3_counterexample :
    parseStringToDecimal "1.2.3".toList = .ok ⟨123, 3, 2⟩ := by
  rfl

/-- Claim C3, amended: for every non-empty input (of length ≤ 255, where the
8-bit loop index is faithful), parseStringToDecimal fails unless, after an
optional single leading '+' or '-', every remaining character is a decimal
digit or '.'; the failure is a validation error, or the overflow error when
128-bit accumulation overflows before the offending character.  Strings with
two or more '.' characters are NOT rejected for that reason. -/
theorem claim_C3_amended (value : List Char) (hne : value ≠ [])
    (hlen : value.length ≤ 255)
    (hbad : ∃ c ∈ afterSign value, okChar c = false) :
    ∃ e, parseStringToDecimal value = .error e := by
  obtain ⟨c, hc, hbadc⟩ := hbad
  match value, hne with
  | a :: rest, _ =>
    have hpi : ∃ e, parseToInt128 (a :: rest) = .error e := by
      simp only [parseToInt128]
      by_cases hdig : isdigit a = true
      · rw [if_pos hdig]
        have hmem : c ∈ a :: rest := by
          simp only [afterSign] at hc
          rwa [if_neg (isdigit_not_sign hdig)] at hc
        obtain ⟨c', hc', hbad'⟩ := bad_mem_dropWhile (a :: rest) c hmem hbadc
        obtain ⟨e, he⟩ := parseLoop_bad _ false ⟨0, 0, 0, false⟩ c' hc' hbad'
        rw [he]
        exact ⟨e, rfl⟩
      · rw [if_neg hdig]
        by_cases hsign : a = '-' ∨ a = '+'
        · rw [if_pos hsign]
          have hmem : c ∈ rest := by
            simp only [afterSign] at hc
            rwa [if_pos hsign] at hc
          obtain ⟨c', hc', hbad'⟩ := bad_mem_dropWhile rest c hmem hbadc
          obtain ⟨e, he⟩ := parseLoop_bad _ (a = '-') ⟨0, 0, 0, false⟩ c' hc' hbad'
          rw [he]
          exact ⟨e, rfl⟩
        · rw [if_neg hsign]
          exact ⟨.validationErr, rfl⟩
    obtain ⟨e, he⟩ := hpi
    refine ⟨e, ?_⟩
    unfold parseStringToDecimal
    rw [if_pos (by simp), he]

/-- Witness for the amended C3 at the concrete input `"12a"`. -/
theorem claim_C3_witness :
    ("12a".toList ≠ [] ∧ "12a".toList.length ≤ 255 ∧
      ∃ c ∈ afterSign "12a".toList, okChar c = false) ∧
    ∃ e, parseStringToDecimal "12a".toList = .error e :=
  ⟨⟨by decide, by decide, by decide⟩,
    claim_C3_amended "12a".toList (by decide) (by decide) (by decide)⟩

/-- Claim C4, counterexample: the input `"0"` is accepted (leading zeros are
stripped before the loop, leaving nothing), and the returned Decimal has
precision 0, violating the claimed invariant `precision ∈ [1, 38]`. -/
theorem claim_C4_counterexample :
    parseStringToDecimal "0".toList = .ok ⟨0, 0, 0⟩ ∧
    ¬(1 ≤ (Decimal.mk 0 0 0).precision ∧ (Decimal.mk 0 0 0).precision ≤ 38) := by
  exact ⟨rfl, by decide⟩

/-- Claim C4, amended: every Decimal that parseStringToDecimal returns (for
inputs of length ≤ 255, where the 8-bit counters are faithful) satisfies
`scale ≤ precision` and `|unscaledValue| < 10 ^ precision`; the precision is
the number of digit characters processed after sign and leading-zero
stripping, which can be 0 (e.g. input "0") or exceed 38 (e.g. 39-digit
inputs), so `precision ∈ [1, 38]` does not hold. -/
theorem claim_C4_amended (value : List Char) (d : Decimal)
    (hlen : value.length ≤ 255)
    (h : parseStringToDecimal value = .ok d) :
    d.scale ≤ d.precision ∧ d.unscaledValue.natAbs < 10 ^ d.precision := by
  have main : ∀ r p s, parseToInt128 value = .ok (r, p, s) →
      s ≤ p ∧ r.natAbs < 10 ^ p := by
    intro r p s hp
    match value with
    | [] => exact Except.noConfusion hp
    | a :: rest =>
      simp only [parseToInt128] at hp
      by_cases hdig : isdigit a = true
      · rw [if_pos hdig] at hp
        split at hp
        next st hl =>
          have h3 := Except.ok.inj hp
          simp only [Prod.mk.injEq] at h3
          obtain ⟨e1, e2, e3⟩ := h3
          rw [← e1, ← e2, ← e3]
          exact parseLoop_inv _ false _ st hl (by simp) (by simp)
        next e hl => exact Except.noConfusion hp
      · rw [if_neg hdig] at hp
        by_cases hsign : a = '-' ∨ a = '+'
        · rw [if_pos hsign] at hp
          split at hp
          next st hl =>
            have h3 := Except.ok.inj hp
            simp only [Prod.mk.injEq] at h3
            obtain ⟨e1, e2, e3⟩ := h3
            rw [← e1, ← e2, ← e3]
            exact parseLoop_inv _ (a = '-') _ st hl (by simp) (by simp)
          next e hl => exact Except.noConfusion hp
        · rw [if_neg hsign] at hp
          exact Except.noConfusion hp
  unfold parseStringToDecimal at h
  split at h
  · split at h
    case h_1 r p s heq =>
      have hd : d = ⟨r, p, s⟩ := (Except.ok.inj h).symm
      subst hd
      exact main r p s heq
    case h_2 => exact Except.noConfusion h
  · exact Except.noConfusion h

/-- Witness for the amended C4 at the concrete input `"12.34"`. -/
theorem claim_C4_witness :
    ("12.34".toList.length ≤ 255 ∧
      parseStringToDecimal "12.34".toList = .ok ⟨1234, 4, 2⟩) ∧
    ((Decimal.mk 1234 4 2).scale ≤ (Decimal.mk 1234 4 2).precision ∧
      (Decimal.mk 1234 4 2).unscaledValue.natAbs <
        10 ^ (Decimal.mk 1234 4 2).precision) :=
  ⟨⟨by decide, rfl⟩,
    claim_C4_amended "12.34".toList ⟨1234, 4, 2⟩ (by decide) rfl⟩

/-- Claim C8: `Decimal::operator==` is true exactly when the two operands agree
on unscaledValue, precision and scale; in particular `Decimal(12300, 5, 2)`
and `Decimal(1230, 4, 1)`, both denoting 123.00, compare as unequal. -/
theorem claim_C8_decimal_eq :
    (∀ a b : Decimal, Decimal.eq a b = true ↔
      (a.unscaledValue = b.unscaledValue ∧ a.precision = b.precision ∧
        a.scale = b.scale)) ∧
    Decimal.eq ⟨12300, 5, 2⟩ ⟨1230, 4, 1⟩ = false := by
  constructor
  · intro a b
    simp [Decimal.eq, and_assoc]
  · decide

/-- Claim C9: `Int128` addition, subtraction and multiplication return the
exact integer result exactly when it fits in a signed 128-bit integer, and
fail with the arithmetic-overflow check exactly otherwise; no rescaling and no
precision bound below the 128-bit range is involved. -/
theorem claim_C9_int128_arith (a b : Int) (_ha : inInt128 a) (_hb : inInt128 b) :
    (Int128.add a b = .ok (a + b) ↔ inInt128 (a + b)) ∧
    (¬inInt128 (a + b) → Int128.add a b = .error .overflowErr) ∧
    (Int128.sub a b = .ok (a - b) ↔ inInt128 (a - b)) ∧
    (¬inInt128 (a - b) → Int128.sub a b = .error .overflowErr) ∧
    (Int128.mul a b = .ok (a * b) ↔ inInt128 (a * b)) ∧
    (¬inInt128 (a * b) → Int128.mul a b = .error .overflowErr) := by
  unfold Int128.add Int128.sub Int128.mul
  refine ⟨?_, ?_, ?_, ?_, ?_, ?_⟩ <;> split_ifs <;> simp_all

/-- Witness for C9 at the in-range operands 0 and 0. -/
theorem claim_C9_witness :
    inInt128 (0 : Int) ∧
    ((Int128.add 0 0 = .ok ((0 : Int) + 0) ↔ inInt128 ((0 : Int) + 0)) ∧
      (¬inInt128 ((0 : Int) + 0) → Int128.add 0 0 = .error .overflowErr) ∧
      (Int128.sub 0 0 = .ok ((0 : Int) - 0) ↔ inInt128 ((0 : Int) - 0)) ∧
      (¬inInt128 ((0 : Int) - 0) → Int128.sub 0 0 = .error .overflowErr) ∧
      (Int128.mul 0 0 = .ok ((0 : Int) * 0) ↔ inInt128 ((0 : Int) * 0)) ∧
      (¬inInt128 ((0 : Int) * 0) → Int128.mul 0 0 = .error .overflowErr)) :=
  ⟨by decide, claim_C9_int128_arith 0 0 (by decide) (by decide)⟩

/-- Claim C10: `Decimal::operator!=`, `<`, `<=` and `>` all return the literal
`true` regardless of the operands; hence `!=` is not the negation of `==`, and
`d != d` holds alongside `d == d` for every Decimal `d`. -/
theorem claim_C10_comparison_stubs :
    (∀ a b : Decimal, Decimal.ne a b = true ∧ Decimal.lt a b = true ∧
      Decimal.le a b = true ∧ Decimal.gt a b = true) ∧
    (∀ d : Decimal, Decimal.ne d d = true ∧ Decimal.eq d d = true ∧
      Decimal.ne d d ≠ !Decimal.eq d d) := by
  refine ⟨fun a b => ⟨rfl, rfl, rfl, rfl⟩, fun d => ⟨rfl, ?_, ?_⟩⟩
  · simp [Decimal.eq]
  · simp [Decimal.ne, Decimal.eq]

/-! ## Encoding model, flattening engine and conversion adapter -/

/-- Point update of a raw buffer modelled as a total function. -/
def bufWrite {α : Type} (f : Nat → α) (i : Nat) (v : α) : Nat → α :=
  fun j => if j = i then v else f j

/-- Vectors of the encoding model restricted to what the flattening engine and
the conversion adapter touch: Flat (values buffer), Dictionary
{indices, base}, Array {offsets, sizes, elements} and Map
{offsets, sizes, keys, values}; every variant carries a length and an
optional validity bitmap. Buffers are total functions. -/
inductive Vec where
  | flat (length : Nat) (nulls : Option (Nat → Bool)) (values : Nat → Int)
  | dict (nulls : Option (Nat → Bool)) (indices : Nat → Nat) (length : Nat)
      (base : Vec)
  | arr (nulls : Option (Nat → Bool)) (length : Nat) (offsets : Nat → Nat)
      (sizes : Nat → Nat) (elements : Vec)
  | mapV (nulls : Option (Nat → Bool)) (length : Nat) (offsets : Nat → Nat)
      (sizes : Nat → Nat) (keys : Vec) (values : Vec)

/-- Modelled from the spec: `BaseVector::wrapInDictionary` (declared outside
src/) builds a Dictionary vector from {nulls, indices, length, base}; the
spec permits returning `base` unchanged for a full identity selection as an
optimization only, which this model does not take. -/
def wrapInDictionary (nulls : Option (Nat → Bool)) (indices : Nat → Nat)
    (length : Nat) (base : Vec) : Vec :=
  .dict nulls indices length base

/-- Modelled from the spec: reading row `i` resolves dictionary indirection
repeatedly until a non-dictionary base is reached; Flat reads its values
buffer.  Array/Map rows are not scalar reads and yield 0 here. -/
def valueAtVec : Vec → Nat → Int
  | .flat _ _ values, i => values i
  | .dict _ indices _ base, i => valueAtVec base (indices i)
  | .arr _ _ _ _ _, _ => 0
  | .mapV _ _ _ _ _ _, _ => 0

/-- `rawSizes()` of a vector viewed `as<ArrayVector>` / `as<MapVector>` (the
unchecked cast of the source is only ever applied to Array/Map bases; other
variants yield a zero buffer here and are excluded by hypothesis in the
theorems). -/
def vecSizes : Vec → Nat → Nat
  | .arr _ _ _ sizes _, i => sizes i
  | .mapV _ _ _ sizes _ _, i => sizes i
  | _, _ => 0

/-- `rawOffsets()` of a vector viewed `as<ArrayVector>` / `as<MapVector>`. -/
def vecOffsets : Vec → Nat → Nat
  | .arr _ _ offsets _ _, i => offsets i
  | .mapV _ _ offsets _ _ _, i => offsets i
  | _, _ => 0

/-- `SelectivityVector`: the ordered set of active row positions `selected`
(iterated in ascending order by `applyToSelected`) within a vector of `size`
rows. -/
structure SelectivityVector where
  size : Nat
  selected : List Nat

/-- `DecodedVector`: dictionary resolution of a vector — a non-dictionary
`base`, the composed `indices`, null information and the identity flag. -/
structure DecodedVector where
  mayHaveNulls : Bool
  isNullAt : Nat → Bool
  indices : Nat → Nat
  isIdentityMapping : Bool
  base : Vec

/-- `flattenNulls`: no buffer when the decoded vector has no nulls; otherwise
a bitmap whose bit at each selected row is `decodedVector.isNullAt(row)`
(bits outside the selection are uninitialized in the source; they read as
false here and are never consulted). -/
def flattenNulls (rows : SelectivityVector) (d : DecodedVector) :
    Option (Nat → Bool) :=
  if !d.mayHaveNulls then none
  else
    some (rows.selected.foldl
      (fun f row => bufWrite f row (d.isNullAt row)) (fun _ => false))

/-- `rawNewNulls && bits::isBitNull(rawNewNulls, row)`: the null test of the
pass-2 body, false when the bitmap is absent. -/
def isNullBit : Option (Nat → Bool) → Nat → Bool
  | none, _ => false
  | some f, row => f row

/-- The mutable locals of the pass-2 loop of `flattenBuffers`. -/
structure FlattenState where
  elementIndex : Nat
  rawElementIndices : Nat → Nat
  rawNewSizes : Nat → Nat
  rawNewOffsets : Nat → Nat

/-- The inner loop
`for (i = 0; i < size; i++) rawElementIndices[elementIndex++] = offset + i`:
writes `off, off+1, ...` at consecutive positions starting at `pos`. -/
def writeSeq (f : Nat → Nat) (pos : Nat) (off : Nat) : Nat → (Nat → Nat)
  | 0 => f
  | k + 1 => writeSeq (bufWrite f pos off) (pos + 1) (off + 1) k

/-- One iteration of the `rows.applyToSelected` body of `flattenBuffers`:
skip rows whose new-nulls bit is set; otherwise resolve {offset, size}
through the dictionary indices, record them, and append `size` consecutive
original-child indices starting at `offset`. -/
def flattenStep (d : DecodedVector) (newNulls : Option (Nat → Bool))
    (st : FlattenState) (row : Nat) : FlattenState :=
  if isNullBit newNulls row then st
  else
    { elementIndex := st.elementIndex + vecSizes d.base (d.indices row)
      rawElementIndices := writeSeq st.rawElementIndices st.elementIndex
        (vecOffsets d.base (d.indices row)) (vecSizes d.base (d.indices row))
      rawNewSizes := bufWrite st.rawNewSizes row (vecSizes d.base (d.indices row))
      rawNewOffsets := bufWrite st.rawNewOffsets row st.elementIndex }

/-- `flattenBuffers`: builds `newNulls`, the zero-initialized
`newSizes`/`newOffsets` buffers (`allocateSizes`/`allocateOffsets`) and the
`elementIndices` buffer (allocated with length `newNumElements`, which is the
length the caller passes to `wrapInDictionary`), then folds the pass-2 body
over the selection in ascending order starting from `elementIndex = 0`. -/
def flattenBuffers (rows : SelectivityVector) (_newNumElements : Nat)
    (d : DecodedVector) : Option (Nat → Bool) × FlattenState :=
  let newNulls := flattenNulls rows d
  (newNulls,
    rows.selected.foldl (flattenStep d newNulls) ⟨0, fun _ => 0, fun _ => 0, fun _ => 0⟩)

/-- Modelled from the spec: `countElements` (declared in LambdaFunctionUtil.h,
not under src/) — "Pass 1: compute `newNumElements` = sum of sizes of
selected, non-null rows". -/
def countElements (rows : SelectivityVector) (d : DecodedVector) : Nat :=
  ((rows.selected.filter fun row => !(d.mayHaveNulls && d.isNullAt row)).map
    fun row => vecSizes d.base (d.indices row)).sum

/-- `std::dynamic_pointer_cast<ArrayVector>`: succeeds only on Array vectors. -/
def asArrayVector (v : Vec) : Option Vec :=
  match v with
  | .arr _ _ _ _ _ => some v
  | _ => none

/-- `std::dynamic_pointer_cast<MapVector>`: succeeds only on Map vectors. -/
def asMapVector (v : Vec) : Option Vec :=
  match v with
  | .mapV _ _ _ _ _ _ => some v
  | _ => none

/-- `flattenArray`: returns the input unchanged when the decoded vector is
identity-mapped; otherwise runs `countElements` and `flattenBuffers` and
reassembles an Array of `rows.size()` rows around the *original* elements
child wrapped in a dictionary over `elementIndices` (null indices-nulls,
length `newNumElements`).  `none` models the unchecked `as<ArrayVector>()`
on a non-array base. -/
def flattenArray (rows : SelectivityVector) (vector : Vec)
    (d : DecodedVector) : Option Vec :=
  if d.isIdentityMapping then
    asArrayVector vector
  else
    match d.base with
    | .arr _ _ _ _ elements =>
      let out := flattenBuffers rows (countElements rows d) d
      some (.arr out.1 rows.size out.2.rawNewOffsets out.2.rawNewSizes
        (wrapInDictionary none out.2.rawElementIndices (countElements rows d)
          elements))
    | _ => none

/-- `flattenMap`: as `flattenArray`, but the keys and values children are
wrapped in lockstep with the identical `elementIndices` buffer. -/
def flattenMap (rows : SelectivityVector) (vector : Vec)
    (d : DecodedVector) : Option Vec :=
  if d.isIdentityMapping then
    asMapVector vector
  else
    match d.base with
    | .mapV _ _ _ _ keys values =>
      let out := flattenBuffers rows (countElements rows d) d
      some (.mapV out.1 rows.size out.2.rawNewOffsets out.2.rawNewSizes
        (wrapInDictionary none out.2.rawElementIndices (countElements rows d)
          keys)
        (wrapInDictionary none out.2.rawElementIndices (countElements rows d)
          values))
    | _ => none

/-! ### Buffer-write and fold lemmas for the flattening engine -/

lemma bufWrite_self {α : Type} (f : Nat → α) (i : Nat) (v : α) :
    bufWrite f i v i = v := by
  simp [bufWrite]

lemma bufWrite_other {α : Type} (f : Nat → α) {i j : Nat} (v : α) (h : j ≠ i) :
    bufWrite f i v j = f j := by
  simp [bufWrite, h]

lemma foldl_bufWrite_eq (g : Nat → Bool) (l : List Nat) :
    ∀ (f : Nat → Bool) (r : Nat),
      (l.foldl (fun f row => bufWrite f row (g row)) f) r =
        if r ∈ l then g r else f r := by
  induction l with
  | nil => intro f r; simp
  | cons a t ih =>
    intro f r
    rw [List.foldl_cons, ih]
    by_cases hrt : r ∈ t
    · simp [hrt]
    · by_cases hra : r = a
      · subst hra
        simp [hrt, bufWrite_self]
      · simp [hrt, hra, bufWrite_other _ _ hra]

/-- For a selected row, the bit of the `flattenNulls` bitmap is exactly
`mayHaveNulls && isNullAt row`. -/
lemma isNullBit_flattenNulls (rows : SelectivityVector) (d : DecodedVector)
    (r : Nat) (hr : r ∈ rows.selected) :
    isNullBit (flattenNulls rows d) r = (d.mayHaveNulls && d.isNullAt r) := by
  unfold flattenNulls
  by_cases hm : d.mayHaveNulls
  · rw [if_neg (by simp [hm])]
    simp only [isNullBit]
    rw [foldl_bufWrite_eq, if_pos hr, hm, Bool.true_and]
  · rw [if_pos (by simp [hm])]
    simp only [isNullBit]
    simp [Bool.eq_false_iff.mpr hm]

lemma writeSeq_lt (k : Nat) : ∀ (f : Nat → Nat) (pos off p : Nat), p < pos →
    writeSeq f pos off k p = f p := by
  induction k with
  | zero => intro f pos off p _; rfl
  | succ k ih =>
    intro f pos off p hp
    unfold writeSeq
    rw [ih _ _ _ _ (Nat.lt_succ_of_lt hp)]
    exact bufWrite_other f _ (Nat.ne_of_lt hp)

lemma writeSeq_at (k : Nat) : ∀ (f : Nat → Nat) (pos off i : Nat), i < k →
    writeSeq f pos off k (pos + i) = off + i := by
  induction k with
  | zero => intro _ _ _ i h; exact absurd h (Nat.not_lt_zero i)
  | succ k ih =>
    intro f pos off i hi
    unfold writeSeq
    cases i with
    | zero =>
      simp only [Nat.add_zero]
      rw [writeSeq_lt k _ _ _ _ (show pos < pos + 1 by omega)]
      exact bufWrite_self f pos off
    | succ j =>
      have harr : pos + (j + 1) = (pos + 1) + j := by omega
      rw [harr, ih _ _ _ _ (by omega)]
      omega

lemma flattenStep_skip (d : DecodedVector) (nn : Option (Nat → Bool))
    (st : FlattenState) (row : Nat) (h : isNullBit nn row = true) :
    flattenStep d nn st row = st := by
  simp [flattenStep, h]

lemma flattenStep_go (d : DecodedVector) (nn : Option (Nat → Bool))
    (st : FlattenState) (row : Nat) (h : isNullBit nn row = false) :
    flattenStep d nn st row =
      { elementIndex := st.elementIndex + vecSizes d.base (d.indices row)
        rawElementIndices := writeSeq st.rawElementIndices st.elementIndex
          (vecOffsets d.base (d.indices row)) (vecSizes d.base (d.indices row))
        rawNewSizes := bufWrite st.rawNewSizes row
          (vecSizes d.base (d.indices row))
        rawNewOffsets := bufWrite st.rawNewOffsets row st.elementIndex } := by
  simp [flattenStep, h]

lemma foldl_elementIndex_mono (d : DecodedVector) (nn : Option (Nat → Bool))
    (l : List Nat) : ∀ st : FlattenState,
    st.elementIndex ≤ (l.foldl (flattenStep d nn) st).elementIndex := by
  induction l with
  | nil => intro st; exact le_refl _
  | cons a t ih =>
    intro st
    rw [List.foldl_cons]
    refine le_trans ?_ (ih (flattenStep d nn st a))
    by_cases h : isNullBit nn a = true
    · rw [flattenStep_skip d nn st a h]
    · rw [flattenStep_go d nn st a (Bool.eq_false_iff.mpr h)]
      exact Nat.le_add_right _ _

lemma foldl_eIdx_preserve (d : DecodedVector) (nn : Option (Nat → Bool))
    (l : List Nat) : ∀ (st : FlattenState) (p : Nat), p < st.elementIndex →
    (l.foldl (flattenStep d nn) st).rawElementIndices p =
      st.rawElementIndices p := by
  induction l with
  | nil => intro st p _; rfl
  | cons a t ih =>
    intro st p hp
    rw [List.foldl_cons]
    by_cases h : isNullBit nn a = true
    · rw [flattenStep_skip d nn st a h]
      exact ih st p hp
    · rw [flattenStep_go d nn st a (Bool.eq_false_iff.mpr h)]
      rw [ih _ p (by dsimp only; omega)]
      exact writeSeq_lt _ _ _ _ _ hp

lemma foldl_sizes_offsets_preserve (d : DecodedVector)
    (nn : Option (Nat → Bool)) (l : List Nat) :
    ∀ (st : FlattenState) (r : Nat), r ∉ l →
    (l.foldl (flattenStep d nn) st).rawNewSizes r = st.rawNewSizes r ∧
    (l.foldl (flattenStep d nn) st).rawNewOffsets r = st.rawNewOffsets r := by
  induction l with
  | nil => intro st r _; exact ⟨rfl, rfl⟩
  | cons a t ih =>
    intro st r hr
    have hra : r ≠ a := fun h => hr (h ▸ List.mem_cons_self a t)
    have hrt : r ∉ t := fun h => hr (List.mem_cons_of_mem a h)
    rw [List.foldl_cons]
    obtain ⟨h1, h2⟩ := ih (flattenStep d nn st a) r hrt
    rw [h1, h2]
    by_cases h : isNullBit nn a = true
    · rw [flattenStep_skip d nn st a h]
      exact ⟨rfl, rfl⟩
    · rw [flattenStep_go d nn st a (Bool.eq_false_iff.mpr h)]
      exact ⟨bufWrite_other _ _ hra, bufWrite_other _ _ hra⟩

/-- Per-row behaviour of pass 2 over an ascending selection: a selected
non-null row `r` ends with `newSizes[r]` equal to the resolved size, and the
element-indices buffer holds the consecutive original-child positions
starting at the resolved offset, at positions `newOffsets[r] + i`. -/
lemma foldl_row_spec (d : DecodedVector) (nn : Option (Nat → Bool))
    (l : List Nat) : ∀ (st : FlattenState) (r : Nat),
    l.Pairwise (· < ·) → r ∈ l → isNullBit nn r = false →
    (l.foldl (flattenStep d nn) st).rawNewSizes r =
      vecSizes d.base (d.indices r) ∧
    (∀ i, i < vecSizes d.base (d.indices r) →
      (l.foldl (flattenStep d nn) st).rawElementIndices
        ((l.foldl (flattenStep d nn) st).rawNewOffsets r + i) =
        vecOffsets d.base (d.indices r) + i) := by
  induction l with
  | nil => intro _ r _ hr _; cases hr
  | cons a t ih =>
    intro st r hpw hr hnull
    obtain ⟨hhead, htail⟩ := List.pairwise_cons.mp hpw
    rw [List.foldl_cons]
    rcases List.mem_cons.mp hr with rfl | hrt
    · have hat : r ∉ t := fun hmem => lt_irrefl r (hhead r hmem)
      rw [flattenStep_go d nn st r hnull]
      obtain ⟨hsz, hoff⟩ := foldl_sizes_offsets_preserve d nn t _ r hat
      rw [hsz, hoff]
      dsimp only
      rw [bufWrite_self, bufWrite_self]
      refine ⟨rfl, fun i hi => ?_⟩
      rw [foldl_eIdx_preserve d nn t _ (st.elementIndex + i) (by dsimp only; omega)]
      dsimp only
      exact writeSeq_at _ _ _ _ _ hi
    · exact ih (flattenStep d nn st a) r htail hrt hnull

/-- The cursor after pass 2 equals its start plus the sum of the resolved
sizes of the processed non-null rows. -/
lemma foldl_elementIndex_sum (d : DecodedVector) (nn : Option (Nat → Bool))
    (l : List Nat) : ∀ st : FlattenState,
    (l.foldl (flattenStep d nn) st).elementIndex =
    st.elementIndex + ((l.filter fun r => !isNullBit nn r).map
      fun r => vecSizes d.base (d.indices r)).sum := by
  induction l with
  | nil => intro st; simp
  | cons a t ih =>
    intro st
    rw [List.foldl_cons]
    by_cases h : isNullBit nn a = true
    · rw [flattenStep_skip d nn st a h, ih st, List.filter_cons]
      simp [h]
    · rw [flattenStep_go d nn st a (Bool.eq_false_iff.mpr h), ih, List.filter_cons]
      simp only [h, Bool.not_false, if_pos, List.map_cons, List.sum_cons]
      omega

/-- Shared per-row core of the content-preservation law, for any decoded base
(instantiated at Array and Map bases by claim C5): on a selected non-null row
the final buffers hold the resolved size and the consecutive original-child
indices starting at the resolved offset. -/
lemma flatten_row_core (rows : SelectivityVector) (d : DecodedVector)
    (hasc : rows.selected.Pairwise (· < ·)) (r : Nat) (hr : r ∈ rows.selected)
    (hnull : (d.mayHaveNulls && d.isNullAt r) = false) :
    ((flattenBuffers rows (countElements rows d) d).2.rawNewSizes r =
      vecSizes d.base (d.indices r)) ∧
    (∀ i, i < vecSizes d.base (d.indices r) →
      (flattenBuffers rows (countElements rows d) d).2.rawElementIndices
        ((flattenBuffers rows (countElements rows d) d).2.rawNewOffsets r + i) =
        vecOffsets d.base (d.indices r) + i) := by
  have hnull2 : isNullBit (flattenNulls rows d) r = false := by
    rw [isNullBit_flattenNulls rows d r hr, hnull]
  exact foldl_row_spec d (flattenNulls rows d) rows.selected
    ⟨0, fun _ => 0, fun _ => 0, fun _ => 0⟩ r hasc hr hnull2

/-- Claim C5: flattening content preservation for both `flattenArray` and
`flattenMap` — for every selected non-null row `r` of a dictionary-encoded
Array input (`da`) or Map input (`dm`), `newSizes[r]` equals the decoded
base's size at `indices[r]` and `elementIndices[newOffsets[r] + i]` equals the
decoded base's offset at `indices[r]` plus `i` for every `i < size`;
`flattenArray` returns the reassembly whose elements child is the *original*
elements child wrapped in a dictionary over `elementIndices`, and `flattenMap`
returns the reassembly whose keys and values children are the original keys
and values children wrapped in lockstep over the identical `elementIndices`. -/
theorem claim_C5_flatten_content (rows : SelectivityVector)
    (da dm : DecodedVector) (vector : Vec)
    (bn : Option (Nat → Bool)) (bl : Nat) (boffs bszs : Nat → Nat) (belems : Vec)
    (mn : Option (Nat → Bool)) (ml : Nat) (moffs mszs : Nat → Nat)
    (mkeys mvalues : Vec)
    (hbase : da.base = Vec.arr bn bl boffs bszs belems)
    (hmbase : dm.base = Vec.mapV mn ml moffs mszs mkeys mvalues)
    (hasc : rows.selected.Pairwise (· < ·))
    (hida : da.isIdentityMapping = false)
    (hidm : dm.isIdentityMapping = false)
    (r : Nat) (hr : r ∈ rows.selected)
    (hnulla : (da.mayHaveNulls && da.isNullAt r) = false)
    (hnullm : (dm.mayHaveNulls && dm.isNullAt r) = false) :
    (((flattenBuffers rows (countElements rows da) da).2.rawNewSizes r =
        bszs (da.indices r)) ∧
      (∀ i, i < bszs (da.indices r) →
        (flattenBuffers rows (countElements rows da) da).2.rawElementIndices
          ((flattenBuffers rows (countElements rows da) da).2.rawNewOffsets r
            + i) = boffs (da.indices r) + i) ∧
      flattenArray rows vector da =
        some (Vec.arr (flattenBuffers rows (countElements rows da) da).1
          rows.size
          (flattenBuffers rows (countElements rows da) da).2.rawNewOffsets
          (flattenBuffers rows (countElements rows da) da).2.rawNewSizes
          (Vec.dict none
            (flattenBuffers rows (countElements rows da) da).2.rawElementIndices
            (countElements rows da) belems))) ∧
    (((flattenBuffers rows (countElements rows dm) dm).2.rawNewSizes r =
        mszs (dm.indices r)) ∧
      (∀ i, i < mszs (dm.indices r) →
        (flattenBuffers rows (countElements rows dm) dm).2.rawElementIndices
          ((flattenBuffers rows (countElements rows dm) dm).2.rawNewOffsets r
            + i) = moffs (dm.indices r) + i) ∧
      flattenMap rows vector dm =
        some (Vec.mapV (flattenBuffers rows (countElements rows dm) dm).1
          rows.size
          (flattenBuffers rows (countElements rows dm) dm).2.rawNewOffsets
          (flattenBuffers rows (countElements rows dm) dm).2.rawNewSizes
          (Vec.dict none
            (flattenBuffers rows (countElements rows dm) dm).2.rawElementIndices
            (countElements rows dm) mkeys)
          (Vec.dict none
            (flattenBuffers rows (countElements rows dm) dm).2.rawElementIndices
            (countElements rows dm) mvalues))) := by
  constructor
  · obtain ⟨h1, h2⟩ := flatten_row_core rows da hasc r hr hnulla
    rw [hbase] at h1 h2
    simp only [vecSizes, vecOffsets] at h1 h2
    refine ⟨h1, h2, ?_⟩
    unfold flattenArray
    rw [hida]
    simp only [Bool.false_eq_true, if_false, hbase]
    rfl
  · obtain ⟨h1, h2⟩ := flatten_row_core rows dm hasc r hr hnullm
    rw [hmbase] at h1 h2
    simp only [vecSizes, vecOffsets] at h1 h2
    refine ⟨h1, h2, ?_⟩
    unfold flattenMap
    rw [hidm]
    simp only [Bool.false_eq_true, if_false, hmbase]
    rfl

/-- Witness data for the flattening claims: two selected rows over a reversing
dictionary of a 2-row array base with 2-element rows. -/
def wRows : SelectivityVector := ⟨2, [0, 1]⟩

/-- Witness elements child: 5 flat values 0,1,2,3,4. -/
def wElems : Vec := .flat 5 none (fun i => (i : Int))

/-- Witness array base: rows [0,2) and [2,4) of `wElems`. -/
def wBase : Vec := .arr none 2 (fun i => 2 * i) (fun _ => 2) wElems

/-- Witness map base: rows [0,2) and [2,4) of `wElems` as both keys and
values. -/
def wMapBase : Vec := .mapV none 2 (fun i => 2 * i) (fun _ => 2) wElems wElems

/-- Witness decoded vector: indices reverse the two rows, not identity. -/
def wDec : DecodedVector := ⟨false, fun _ => false, fun i => 1 - i, false, wBase⟩

/-- Witness decoded vector over the map base: same reversing indices. -/
def wDecMap : DecodedVector :=
  ⟨false, fun _ => false, fun i => 1 - i, false, wMapBase⟩

/-- Witness input vector: the dictionary wrap the decoded vector came from. -/
def wInput : Vec := .dict none (fun i => 1 - i) 2 wBase

/-- Witness for C5 at row 0 of the concrete reversing-dictionary inputs, over
the array base and the map base. -/
theorem claim_C5_witness :
    (wDec.base = Vec.arr none 2 (fun i => 2 * i) (fun _ => 2) wElems ∧
      wDecMap.base =
        Vec.mapV none 2 (fun i => 2 * i) (fun _ => 2) wElems wElems ∧
      wRows.selected.Pairwise (· < ·) ∧ wDec.isIdentityMapping = false ∧
      wDecMap.isIdentityMapping = false ∧ 0 ∈ wRows.selected ∧
      (wDec.mayHaveNulls && wDec.isNullAt 0) = false ∧
      (wDecMap.mayHaveNulls && wDecMap.isNullAt 0) = false) ∧
    ((((flattenBuffers wRows (countElements wRows wDec) wDec).2.rawNewSizes 0 =
        (fun _ : Nat => 2) (wDec.indices 0)) ∧
      (∀ i, i < (fun _ : Nat => 2) (wDec.indices 0) →
        (flattenBuffers wRows (countElements wRows wDec) wDec).2.rawElementIndices
          ((flattenBuffers wRows (countElements wRows wDec) wDec).2.rawNewOffsets 0
            + i) = (fun i : Nat => 2 * i) (wDec.indices 0) + i) ∧
      flattenArray wRows wInput wDec =
        some (Vec.arr (flattenBuffers wRows (countElements wRows wDec) wDec).1
          wRows.size
          (flattenBuffers wRows (countElements wRows wDec) wDec).2.rawNewOffsets
          (flattenBuffers wRows (countElements wRows wDec) wDec).2.rawNewSizes
          (Vec.dict none
            (flattenBuffers wRows (countElements wRows wDec) wDec).2.rawElementIndices
            (countElements wRows wDec) wElems))) ∧
    (((flattenBuffers wRows (countElements wRows wDecMap) wDecMap).2.rawNewSizes 0 =
        (fun _ : Nat => 2) (wDecMap.indices 0)) ∧
      (∀ i, i < (fun _ : Nat => 2) (wDecMap.indices 0) →
        (flattenBuffers wRows (countElements wRows wDecMap) wDecMap).2.rawElementIndices
          ((flattenBuffers wRows (countElements wRows wDecMap) wDecMap).2.rawNewOffsets 0
            + i) = (fun i : Nat => 2 * i) (wDecMap.indices 0) + i) ∧
      flattenMap wRows wInput wDecMap =
        some (Vec.mapV
          (flattenBuffers wRows (countElements wRows wDecMap) wDecMap).1
          wRows.size
          (flattenBuffers wRows (countElements wRows wDecMap) wDecMap).2.rawNewOffsets
          (flattenBuffers wRows (countElements wRows wDecMap) wDecMap).2.rawNewSizes
          (Vec.dict none
            (flattenBuffers wRows (countElements wRows wDecMap) wDecMap).2.rawElementIndices
            (countElements wRows wDecMap) wElems)
          (Vec.dict none
            (flattenBuffers wRows (countElements wRows wDecMap) wDecMap).2.rawElementIndices
            (countElements wRows wDecMap) wElems)))) :=
  ⟨⟨rfl, rfl, by decide, rfl, rfl, by decide, rfl, rfl⟩,
    claim_C5_flatten_content wRows wDec wDecMap wInput none 2 (fun i => 2 * i)
      (fun _ => 2) wElems none 2 (fun i => 2 * i) (fun _ => 2) wElems wElems
      rfl rfl (by decide) rfl rfl 0 (by decide) rfl rfl⟩

/-- Shared element-count core, for any decoded base (instantiated at Array and
Map bases by claim C6): the sum of the final `newSizes` over the selected
non-null rows equals `countElements`, and so does the final element cursor. -/
lemma flatten_count_core (rows : SelectivityVector) (d : DecodedVector)
    (hasc : rows.selected.Pairwise (· < ·)) :
    (((rows.selected.filter fun r => !(d.mayHaveNulls && d.isNullAt r)).map
        (flattenBuffers rows (countElements rows d) d).2.rawNewSizes).sum =
      countElements rows d) ∧
    ((flattenBuffers rows (countElements rows d) d).2.elementIndex =
      countElements rows d) := by
  have hfilter : (rows.selected.filter fun r => !(d.mayHaveNulls && d.isNullAt r)) =
      (rows.selected.filter fun r => !isNullBit (flattenNulls rows d) r) := by
    apply List.filter_congr
    intro a ha
    rw [isNullBit_flattenNulls rows d a ha]
  constructor
  · have hmap : ((rows.selected.filter fun r =>
        !(d.mayHaveNulls && d.isNullAt r)).map
        (flattenBuffers rows (countElements rows d) d).2.rawNewSizes) =
        ((rows.selected.filter fun r => !(d.mayHaveNulls && d.isNullAt r)).map
          fun r => vecSizes d.base (d.indices r)) := by
      apply List.map_congr_left
      intro a ha
      have hmem := List.mem_of_mem_filter ha
      have hpred := List.of_mem_filter ha
      have hnull : (d.mayHaveNulls && d.isNullAt a) = false := by
        revert hpred; cases d.mayHaveNulls && d.isNullAt a <;> simp
      have hnull2 : isNullBit (flattenNulls rows d) a = false := by
        rw [isNullBit_flattenNulls rows d a hmem, hnull]
      exact (foldl_row_spec d (flattenNulls rows d) rows.selected
        ⟨0, fun _ => 0, fun _ => 0, fun _ => 0⟩ a hasc hmem hnull2).1
    rw [hmap]
    rfl
  · have hsum := foldl_elementIndex_sum d (flattenNulls rows d) rows.selected
      ⟨0, fun _ => 0, fun _ => 0, fun _ => 0⟩
    unfold flattenBuffers
    dsimp only
    rw [hsum]
    unfold countElements
    rw [hfilter]
    dsimp only
    omega

/-- Claim C6: flattening element-count law for both `flattenArray` and
`flattenMap` — over a dictionary-encoded Array input (`da`) or Map input
(`dm`), the sum of `newSizes[r]` over the selected non-null rows equals
`newNumElements` (the `countElements` pass-1 sum), which is the final value
of the element cursor (the number of entries written to `elementIndices`) and
the length of every dictionary wrap placed over the elements (resp. keys and
values) children. -/
theorem claim_C6_flatten_count (rows : SelectivityVector)
    (da dm : DecodedVector) (vector : Vec)
    (bn : Option (Nat → Bool)) (bl : Nat) (boffs bszs : Nat → Nat) (belems : Vec)
    (mn : Option (Nat → Bool)) (ml : Nat) (moffs mszs : Nat → Nat)
    (mkeys mvalues : Vec)
    (hbase : da.base = Vec.arr bn bl boffs bszs belems)
    (hmbase : dm.base = Vec.mapV mn ml moffs mszs mkeys mvalues)
    (hasc : rows.selected.Pairwise (· < ·))
    (hida : da.isIdentityMapping = false)
    (hidm : dm.isIdentityMapping = false) :
    ((((rows.selected.filter fun r => !(da.mayHaveNulls && da.isNullAt r)).map
        (flattenBuffers rows (countElements rows da) da).2.rawNewSizes).sum =
      countElements rows da) ∧
    ((flattenBuffers rows (countElements rows da) da).2.elementIndex =
      countElements rows da) ∧
    (∃ nn : Option (Nat → Bool), flattenArray rows vector da =
      some (Vec.arr nn rows.size
        (flattenBuffers rows (countElements rows da) da).2.rawNewOffsets
        (flattenBuffers rows (countElements rows da) da).2.rawNewSizes
        (Vec.dict none
          (flattenBuffers rows (countElements rows da) da).2.rawElementIndices
          (countElements rows da) belems)))) ∧
    ((((rows.selected.filter fun r => !(dm.mayHaveNulls && dm.isNullAt r)).map
        (flattenBuffers rows (countElements rows dm) dm).2.rawNewSizes).sum =
      countElements rows dm) ∧
    ((flattenBuffers rows (countElements rows dm) dm).2.elementIndex =
      countElements rows dm) ∧
    (∃ nn : Option (Nat → Bool), flattenMap rows vector dm =
      some (Vec.mapV nn rows.size
        (flattenBuffers rows (countElements rows dm) dm).2.rawNewOffsets
        (flattenBuffers rows (countElements rows dm) dm).2.rawNewSizes
        (Vec.dict none
          (flattenBuffers rows (countElements rows dm) dm).2.rawElementIndices
          (countElements rows dm) mkeys)
        (Vec.dict none
          (flattenBuffers rows (countElements rows dm) dm).2.rawElementIndices
          (countElements rows dm) mvalues)))) := by
  constructor
  · obtain ⟨h1, h2⟩ := flatten_count_core rows da hasc
    refine ⟨h1, h2, (flattenBuffers rows (countElements rows da) da).1, ?_⟩
    unfold flattenArray
    rw [hida]
    simp only [Bool.false_eq_true, if_false, hbase]
    rfl
  · obtain ⟨h1, h2⟩ := flatten_count_core rows dm hasc
    refine ⟨h1, h2, (flattenBuffers rows (countElements rows dm) dm).1, ?_⟩
    unfold flattenMap
    rw [hidm]
    simp only [Bool.false_eq_true, if_false, hmbase]
    rfl

/-- Witness for C6 on the concrete reversing-dictionary inputs, over the
array base and the map base. -/
theorem claim_C6_witness :
    (wDec.base = Vec.arr none 2 (fun i => 2 * i) (fun _ => 2) wElems ∧
      wDecMap.base =
        Vec.mapV none 2 (fun i => 2 * i) (fun _ => 2) wElems wElems ∧
      wRows.selected.Pairwise (· < ·) ∧ wDec.isIdentityMapping = false ∧
      wDecMap.isIdentityMapping = false) ∧
    (((((wRows.selected.filter fun r =>
          !(wDec.mayHaveNulls && wDec.isNullAt r)).map
        (flattenBuffers wRows (countElements wRows wDec) wDec).2.rawNewSizes).sum =
      countElements wRows wDec) ∧
    ((flattenBuffers wRows (countElements wRows wDec) wDec).2.elementIndex =
      countElements wRows wDec) ∧
    (∃ nn : Option (Nat → Bool), flattenArray wRows wInput wDec =
      some (Vec.arr nn wRows.size
        (flattenBuffers wRows (countElements wRows wDec) wDec).2.rawNewOffsets
        (flattenBuffers wRows (countElements wRows wDec) wDec).2.rawNewSizes
        (Vec.dict none
          (flattenBuffers wRows (countElements wRows wDec) wDec).2.rawElementIndices
          (countElements wRows wDec) wElems)))) ∧
    ((((wRows.selected.filter fun r =>
          !(wDecMap.mayHaveNulls && wDecMap.isNullAt r)).map
        (flattenBuffers wRows (countElements wRows wDecMap) wDecMap).2.rawNewSizes).sum =
      countElements wRows wDecMap) ∧
    ((flattenBuffers wRows (countElements wRows wDecMap) wDecMap).2.elementIndex =
      countElements wRows wDecMap) ∧
    (∃ nn : Option (Nat → Bool), flattenMap wRows wInput wDecMap =
      some (Vec.mapV nn wRows.size
        (flattenBuffers wRows (countElements wRows wDecMap) wDecMap).2.rawNewOffsets
        (flattenBuffers wRows (countElements wRows wDecMap) wDecMap).2.rawNewSizes
        (Vec.dict none
          (flattenBuffers wRows (countElements wRows wDecMap) wDecMap).2.rawElementIndices
          (countElements wRows wDecMap) wElems)
        (Vec.dict none
          (flattenBuffers wRows (countElements wRows wDecMap) wDecMap).2.rawElementIndices
          (countElements wRows wDecMap) wElems))))) :=
  ⟨⟨rfl, rfl, by decide, rfl, rfl⟩,
    claim_C6_flatten_count wRows wDec wDecMap wInput none 2 (fun i => 2 * i)
      (fun _ => 2) wElems none 2 (fun i => 2 * i) (fun _ => 2) wElems wElems
      rfl rfl (by decide) rfl rfl⟩

/-- Claim C7: flattening idempotence — when the decoded vector is
identity-mapped, `flattenArray` and `flattenMap` return the input vector
itself (the result of the `dynamic_pointer_cast` back to its concrete type),
without running either pass. -/
theorem claim_C7_flatten_identity (rows : SelectivityVector) (va vm : Vec)
    (d : DecodedVector) (hid : d.isIdentityMapping = true)
    (ha : ∃ bn bl bo bs be, va = Vec.arr bn bl bo bs be)
    (hm : ∃ bn bl bo bs bk bv, vm = Vec.mapV bn bl bo bs bk bv) :
    flattenArray rows va d = some va ∧ flattenMap rows vm d = some vm := by
  obtain ⟨bn, bl, bo, bs, be, rfl⟩ := ha
  obtain ⟨mn, ml, mo, ms, mk, mv, rfl⟩ := hm
  constructor
  · unfold flattenArray
    rw [hid]
    rfl
  · unfold flattenMap
    rw [hid]
    rfl

/-- Witness identity-mapped decoded vector over the witness array base. -/
def wDecId : DecodedVector := ⟨false, fun _ => false, fun i => i, true, wBase⟩

/-- Witness map vector for the C7 witness. -/
def wMapInput : Vec := .mapV none 2 (fun i => 2 * i) (fun _ => 2) wElems wElems

/-- Witness for C7: identity-encoded array and map inputs come back unchanged. -/
theorem claim_C7_witness :
    (wDecId.isIdentityMapping = true ∧
      (∃ bn bl bo bs be, wBase = Vec.arr bn bl bo bs be) ∧
      (∃ bn bl bo bs bk bv, wMapInput = Vec.mapV bn bl bo bs bk bv)) ∧
    (flattenArray wRows wBase wDecId = some wBase ∧
      flattenMap wRows wMapInput wDecId = some wMapInput) :=
  ⟨⟨rfl, ⟨none, 2, fun i => 2 * i, fun _ => 2, wElems, rfl⟩,
      ⟨none, 2, fun i => 2 * i, fun _ => 2, wElems, wElems, rfl⟩⟩,
    claim_C7_flatten_identity wRows wBase wMapInput wDecId rfl
      ⟨none, 2, fun i => 2 * i, fun _ => 2, wElems, rfl⟩
      ⟨none, 2, fun i => 2 * i, fun _ => 2, wElems, wElems, rfl⟩⟩

/-! ### DuckDB conversion adapter -/

/-- A foreign (DuckDB) vector as the adapter sees it: flat with a data buffer
and an optional validity mask, or dictionary-encoded with a selection over a
child. -/
inductive DuckVector where
  | flat (data : Nat → Int) (validity : Option (Nat → Bool))
  | dict (sel : Nat → Nat) (child : DuckVector)

/-- `duckValidity.RowIsValid(i)`: an absent mask means all rows valid. -/
def duckRowIsValid : Option (Nat → Bool) → Nat → Bool
  | none, _ => true
  | some f, i => f i

/-- `(!validity || bits::isBitSet(validity, i))`: the used-value bitmap test;
a null bitmap pointer passes every row. -/
def usedBitSet : Option (Nat → Bool) → Nat → Bool
  | none, _ => true
  | some f, i => f i

/-- The `maxIndex` computation of the dictionary branches: a fold of
`std::max` over `selection.get_index(i)` for `i < size`, starting from 0. -/
def selectionMax (sel : Nat → Nat) (size : Nat) : Nat :=
  (List.range size).foldl (fun m i => max m (sel i)) 0

/-- The auxiliary used-value bitmap built from the selection: bit `j` is set
exactly when some `i < size` selects slot `j`. -/
def usedValuesBitmap (sel : Nat → Nat) (size : Nat) : Nat → Bool :=
  fun j => (List.range size).any fun i => sel i = j

/-- The generic conversion `convert<OP>` of DuckWrapper.cpp.  `perRowCopy`
models `GetType() ∈ {HUGEINT, TIMESTAMP, VARCHAR}` — layouts that cannot be
adopted zero-copy: those columns are copied row by row into a freshly
zero-initialized vector, skipping rows that are invalid or outside the
used-value bitmap; every other column adopts the foreign data buffer as a
view.  A dictionary column computes `maxIndex` over the referenced selection,
converts the child with length `maxIndex + 1` (passing the used-value bitmap
when the child needs per-row copy), copies the selection into an indices
buffer and wraps via `wrapInDictionary`. -/
def convert (perRowCopy : Bool) : DuckVector → Nat → Option (Nat → Bool) → Vec
  | .flat data dval, size, validity =>
    if perRowCopy then
      Vec.flat size dval (fun i =>
        if duckRowIsValid dval i && usedBitSet validity i then data i else 0)
    else
      Vec.flat size dval data
  | .dict sel child, size, _ =>
    let base :=
      if perRowCopy then
        convert perRowCopy child (selectionMax sel size + 1)
          (some (usedValuesBitmap sel size))
      else
        convert perRowCopy child (selectionMax sel size + 1) none
    wrapInDictionary none sel size base

/-- `convertDuckToVeloxDecimal<OP, I>`: `narrowStorage` models the physical
widths INT16/INT32 (copied row by row); INT64/INT128 adopt the foreign buffer
as a view.  The DICTIONARY branch computes `maxIndex` but never uses it: it
recurses on the child with the *chunk* size and returns that conversion bare —
no used-value bitmap, no selection copy and no `wrapInDictionary`. -/
def convertDuckToVeloxDecimal (narrowStorage : Bool) :
    DuckVector → Nat → Option (Nat → Bool) → Vec
  | .flat data dval, size, validity =>
    if narrowStorage then
      Vec.flat size dval (fun i =>
        if duckRowIsValid dval i && usedBitSet validity i then data i else 0)
    else
      Vec.flat size dval data
  | .dict sel child, size, _ =>
    let _maxIndex := selectionMax sel size
    convertDuckToVeloxDecimal narrowStorage child size none

/-- The spec's dictionary scenario, base values 10, 20, 30 (slots beyond the
base cardinality are uninitialized foreign memory, modelled as 0). -/
def duckChild : DuckVector := .flat (fun i => [10, 20, 30].getD i 0) none

/-- The spec's dictionary scenario: selection [2, 0, 2, 1] over `duckChild`. -/
def duckDictColumn : DuckVector := .dict (fun i => [2, 0, 2, 1].getD i 0) duckChild

/-- Claim C1: on the spec's dictionary scenario (base [10,20,30], selection
[2,0,2,1], chunk size 4) the generic `convert` path behaves as claimed —
`maxIndex = 2`, child converted with length `maxIndex + 1 = 3`, selection
wrapped via `wrapInDictionary`, rows reading [30,10,30,20].  But the claim
also covers decimal columns of every storage width, and
`convertDuckToVeloxDecimal` ignores the selection entirely: it converts the
child at the chunk size and returns it bare, so row 0 reads 10, not
`base[selection[0]] = 30`. -/
theorem claim_C1_decimal_dictionary_ignores_selection :
    (convert false duckDictColumn 4 none =
      Vec.dict none (fun i => [2, 0, 2, 1].getD i 0) 4
        (Vec.flat 3 none (fun i => [10, 20, 30].getD i 0))) ∧
    (valueAtVec (convert false duckDictColumn 4 none) 0 = 30 ∧
      valueAtVec (convert false duckDictColumn 4 none) 1 = 10 ∧
      valueAtVec (convert false duckDictColumn 4 none) 2 = 30 ∧
      valueAtVec (convert false duckDictColumn 4 none) 3 = 20) ∧
    (convertDuckToVeloxDecimal false duckDictColumn 4 none =
      Vec.flat 4 none (fun i => [10, 20, 30].getD i 0)) ∧
    valueAtVec (convertDuckToVeloxDecimal false duckDictColumn 4 none) 0 = 10 ∧
    valueAtVec (convertDuckToVeloxDecimal false duckDictColumn 4 none) 0 ≠ 30 := by
  refine ⟨rfl, ⟨rfl, rfl, rfl, rfl⟩, rfl, rfl, by decide⟩

end Velox
